import Mathlib

/-!
Verification development for the Ponder wordlist-generation pipeline.

Strings are modelled as `List Char`.  The repository's corpus data is
ASCII-oriented (non-ASCII candidates are discarded by the filters), and on
ASCII data Go's byte-indexed operations coincide with the character-indexed
operations used here.  File contents are modelled as `List Char` including
newline characters; the line-oriented readers of the source are modelled
explicitly (`scanLines` for `bufio.Scanner` with its `ScanLines` split
function, `splitNl` for `strings.Split(s, "\n")`).  One abstraction: a
`bufio.Scanner`'s 64KB maximum token size (a line longer than that makes
the scanner stop with an error) is not modelled; the scanners here split
lines of any length.
-/

namespace Ponder

/-- A vowel, case-insensitive: the characters of the Go literal "aeiouAEIOU"
(`isWordLike` in pkg/utils). -/
def isVowelChar (c : Char) : Bool :=
  c = 'a' || c = 'e' || c = 'i' || c = 'o' || c = 'u' ||
  c = 'A' || c = 'E' || c = 'I' || c = 'O' || c = 'U'

/-- `unicode.IsLetter`, on the ASCII fragment relevant to this corpus
(after the ASCII-only filter every character is ASCII, where `IsLetter`
coincides with `Char.isAlpha`). -/
def isLetterChar (c : Char) : Bool := c.isAlpha

/-- An ASCII digit, matching the Go closures `r >= '0' && r <= '9'` used by
`removeTrailingDigits` / `removeLeadingDigits`. -/
def isDigitChar (c : Char) : Bool := decide ('0' ≤ c) && decide (c ≤ '9')

/-- `unicode.IsSpace` on the ASCII fragment: space, tab, newline, vertical
tab, form feed, carriage return. -/
def isSpaceChar (c : Char) : Bool :=
  c = ' ' || c = '\t' || c = '\n' || c = '\x0B' || c = '\x0C' || c = '\r'

/-- `dropCR` of Go's `bufio.ScanLines`: drop one terminal carriage return. -/
def dropCR (l : List Char) : List Char :=
  if l.getLast? = some '\r' then l.dropLast else l

/-- Worker for `scanLines`; `acc` holds the current token reversed. -/
def scanLinesAux : List Char → List Char → List (List Char)
  | acc, [] => if acc.isEmpty then [] else [dropCR acc.reverse]
  | acc, c :: rest =>
    if c = '\n' then dropCR acc.reverse :: scanLinesAux [] rest
    else scanLinesAux (c :: acc) rest

/-- The token stream produced by a `bufio.Scanner` with the default
`ScanLines` split function: tokens are maximal newline-free runs, a final
unterminated token is emitted iff it is nonempty, and one trailing carriage
return is stripped from each token. -/
def scanLines (s : List Char) : List (List Char) := scanLinesAux [] s

/-- Worker for `splitNl`; `acc` holds the current piece reversed. -/
def splitNlAux : List Char → List Char → List (List Char)
  | acc, [] => [acc.reverse]
  | acc, c :: rest =>
    if c = '\n' then acc.reverse :: splitNlAux [] rest
    else splitNlAux (c :: acc) rest

/-- `strings.Split(s, "\n")`: always returns one more piece than there are
newlines (so a trailing newline yields a trailing empty piece). -/
def splitNl (s : List Char) : List (List Char) := splitNlAux [] s

/-- `strings.Join(ls, "\n")`. -/
def joinNl : List (List Char) → List Char
  | [] => []
  | [l] => l
  | l :: ls => l ++ '\n' :: joinNl ls

/-- `utils.IsAllDigitsOrSpecialChars`: true iff the string contains no
letter (the Go loop searches for a `unicode.IsLetter` character and returns
the negation of the result). -/
def IsAllDigitsOrSpecialChars (s : List Char) : Bool :=
  !(s.any isLetterChar)

/-- `utils.ContainsOnlyASCII`: false iff some character exceeds
`unicode.MaxASCII` (code point 127). -/
def ContainsOnlyASCII (s : List Char) : Bool :=
  s.all (fun c => decide (c.toNat ≤ 127))

/-- `utils.isWordLike`: the Go loop sets `hasVowel` when it sees a vowel and
otherwise counts characters that are not letters; it returns
`hasVowel && digitOrSpecialCount <= 1`. -/
def isWordLike (s : List Char) : Bool :=
  s.any isVowelChar &&
    decide (s.countP (fun c => !(isVowelChar c) && !(isLetterChar c)) ≤ 1)

/-- `utils.LikelyContainsWords`: false for strings shorter than 5; otherwise
slide a window `s[i : i+5]` for `i < len(s) - 4`, count qualifying windows,
and return whether the count is positive. -/
def LikelyContainsWords (s : List Char) : Bool :=
  if s.length < 5 then false
  else decide (0 < (List.range (s.length - 4)).countP
    (fun i => isWordLike ((s.drop i).take 5)))

/-!
`utils.IsQualityCandidateCheck` compiles the Go raw-string regular
expression

  (xiaonei|zomato|fbobh|fccdbbcdaa|yahoo|linkedin|gmail|yandex|hotmail)
  |http:\\/\\/|https:\\/\\/|\\@.*\\.net|<tr>|<div>|<a href|<p>|<img src
  |[A-Za-z0-9._%+-]+@[A-Za-z0-9.-]+\\.[A-Za-z]+ (2 to 6 letters)
  |^[0-9]+$|^.\x7b0,5\x7d$

and returns the negation of `MatchString`.  Because the pattern is a Go
raw (backquoted) string literal, every `\\` sequence reaching the regexp
engine is an escaped literal backslash.  Hence `http:\\/\\/` matches the
nine-character text `http:\/\/` (with real backslashes), `\\@` matches a
backslash followed by `@`, and `\\.` matches a backslash followed by one
arbitrary non-newline character.  The components below are the direct
hand-compilation of each alternative under RE2 semantics (`.` excludes
newline; `^`/`$` anchor at the start/end of the whole text since multiline
mode is off; `MatchString` searches for a match anywhere).
-/

/-- `strings.Contains`-style substring test: `pat` occurs somewhere in
`s`. -/
def containsSub (pat s : List Char) : Bool :=
  s.tails.any fun t => pat.isPrefixOf t

/-- The plain-word alternatives of the quality regex (matched as
substrings). -/
def domainPats : List (List Char) :=
  ["xiaonei", "zomato", "fbobh", "fccdbbcdaa", "yahoo", "linkedin",
   "gmail", "yandex", "hotmail"].map String.toList

/-- The HTML-fragment alternatives of the quality regex (matched as
substrings). -/
def htmlPats : List (List Char) :=
  ["<tr>", "<div>", "<a href", "<p>", "<img src"].map String.toList

/-- Tail of the `\\@.*\\.net` alternative: after the literal `\@`, a
newline-free run, then a literal backslash, one non-newline character and
`net`. This recognises the backslash-any-net part at the current
position. -/
def isBslashAnyNet : List Char → Bool
  | '\\' :: d :: 'n' :: 'e' :: 't' :: _ => decide (d ≠ '\n')
  | _ => false

/-- Scan for the `.*\\.net` tail: either the backslash part matches here,
or consume one non-newline character (the `.*`) and continue. -/
def matchDotStarTail : List Char → Bool
  | [] => false
  | c :: rest => isBslashAnyNet (c :: rest) || (decide (c ≠ '\n') && matchDotStarTail rest)

/-- The `\\@.*\\.net` alternative, searched at every position. -/
def matchAtNet (s : List Char) : Bool :=
  s.tails.any fun t =>
    match t with
    | '\\' :: '@' :: rest => matchDotStarTail rest
    | _ => false

/-- The character class `[A-Za-z0-9._%+-]` of the e-mail alternative. -/
def isEmailLocalChar (c : Char) : Bool :=
  c.isAlpha || c.isDigit || c = '.' || c = '_' || c = '%' || c = '+' || c = '-'

/-- The character class `[A-Za-z0-9.-]` of the e-mail alternative. -/
def isEmailDomainChar (c : Char) : Bool :=
  c.isAlpha || c.isDigit || c = '.' || c = '-'

/-- After `@` and one domain-class character: keep consuming the
`[A-Za-z0-9.-]+` run until the literal backslash, then one non-newline
character (`\\.`), then at least two ASCII letters (the 2-to-6 letter
repetition). -/
def emailTailCont : List Char → Bool
  | '\\' :: d :: a :: b :: _ => decide (d ≠ '\n') && a.isAlpha && b.isAlpha
  | c :: rest => isEmailDomainChar c && emailTailCont rest
  | _ => false

/-- The `[A-Za-z0-9._%+-]+@[A-Za-z0-9.-]+\\.[A-Za-z]` (2 to 6 letters)
alternative, searched at every position: one local-class character
immediately before `@`, then the domain run handled by `emailTailCont`. -/
def emailMatch (s : List Char) : Bool :=
  s.tails.any fun t =>
    match t with
    | c1 :: '@' :: c2 :: rest => isEmailLocalChar c1 && isEmailDomainChar c2 && emailTailCont rest
    | _ => false

/-- `MatchString` of the quality regex: the disjunction of its top-level
alternatives.  `^[0-9]+$` matches the whole (nonempty, all-digit) text;
`^.\x7b0,5\x7d$` matches a whole text of at most five non-newline
characters. -/
def qualityRegexMatches (s : List Char) : Bool :=
  domainPats.any (fun p => containsSub p s) ||
  containsSub ("http:\\/\\/".toList) s ||
  containsSub ("https:\\/\\/".toList) s ||
  matchAtNet s ||
  htmlPats.any (fun p => containsSub p s) ||
  emailMatch s ||
  (!s.isEmpty && s.all Char.isDigit) ||
  (decide (s.length ≤ 5) && s.all (fun c => decide (c ≠ '\n')))

/-- `utils.IsQualityCandidateCheck`: the negation of the regex match. -/
def IsQualityCandidateCheck (s : List Char) : Bool :=
  !qualityRegexMatches s

/-!  The transform / normalise stage (pkg/models and pkg/generate). -/

/-- Worker for `fields`; `acc` holds the current word reversed. -/
def fieldsAux : List Char → List Char → List (List Char)
  | acc, [] => if acc.isEmpty then [] else [acc.reverse]
  | acc, c :: rest =>
    if isSpaceChar c then
      if acc.isEmpty then fieldsAux [] rest else acc.reverse :: fieldsAux [] rest
    else fieldsAux (c :: acc) rest

/-- `strings.Fields`: the maximal whitespace-free runs, no empty words. -/
def fields (l : List Char) : List (List Char) := fieldsAux [] l

/-- `strings.Join(ws, " ")`. -/
def joinSpace : List (List Char) → List Char
  | [] => []
  | [w] => w
  | w :: ws => w ++ ' ' :: joinSpace ws

/-- `strings.TrimSpace`: strip leading and trailing whitespace. -/
def trimSpace (l : List Char) : List Char :=
  ((l.dropWhile isSpaceChar).reverse.dropWhile isSpaceChar).reverse

/-- `strings.TrimLeft(s, " ")`: strip leading plain spaces. -/
def trimLeftSpaces (l : List Char) : List Char :=
  l.dropWhile (fun c => c = ' ')

/-- The three `strings.ReplaceAll` calls removing every '.', ',' and ';'
from an n-gram. -/
def stripPunct (l : List Char) : List Char :=
  l.filter (fun c => !(c = '.' || c = ',' || c = ';'))

/-- `models.GenerateNGrams text wordRangeStart wordRangeEnd`: for each
window size `i` in the inclusive range and each start `j` with
`0 ≤ j ≤ len(words) - i`, join `words[j : j+i]` with single spaces, trim,
and strip '.', ',', ';'. -/
def GenerateNGrams (text : List Char) (wordRangeStart wordRangeEnd : Nat) :
    List (List Char) :=
  let words := fields text
  ((List.range' wordRangeStart (wordRangeEnd + 1 - wordRangeStart)).map (fun i =>
    (List.range (words.length + 1 - i)).map (fun j =>
      stripPunct (trimLeftSpaces (trimSpace (joinSpace ((words.drop j).take i))))))).flatten

/-- `models.GenerateNGramSliceBytes`: split the chunk on newlines with
`strings.Split`, expand every line into n-grams, and join all results
with newlines. -/
def GenerateNGramSliceBytes (input : List Char) (wordRangeStart wordRangeEnd : Nat) :
    List Char :=
  joinNl (((splitNl input).map
    (fun line => GenerateNGrams line wordRangeStart wordRangeEnd)).flatten)

/-- `generate.RemoveControlChars`: keep only code points 32 to 126. -/
def RemoveControlChars (s : List Char) : List Char :=
  s.filter (fun c => decide (32 ≤ c.toNat) && decide (c.toNat ≤ 126))

/-- `strings.ReplaceAll(s, string c, "")`: drop every occurrence of a
single character. -/
def removeChar (c : Char) (l : List Char) : List Char :=
  l.filter (fun x => !(x = c))

/-- `cases.Title(language.Und, cases.NoLower)` of the x/text library,
modelled from the spec: title-case each word (first letter upper, rest
unchanged), where words are the space-separated runs of the cleaned line
(after `RemoveControlChars` a space is its only whitespace). -/
def titleAux : Bool → List Char → List Char
  | _, [] => []
  | atStart, c :: rest =>
    if c = ' ' then c :: titleAux true rest
    else (if atStart then c.toUpper else c) :: titleAux false rest

/-- Title casing over the whole string, starting at a word boundary. -/
def titleCase (l : List Char) : List Char := titleAux true l

/-- `strings.ReplaceAll(s, " ", "")`. -/
def removeSpaces (l : List Char) : List Char := removeChar ' ' l

/-- The per-line body of `generate.PrepareStringForTransformations`:
strip NUL/newline/tab/CR/FF/VT, keep printable ASCII, lower-case, then
either CamelCase-merge a multi-word phrase or keep the word as is. -/
def prepareLine (line : List Char) : List Char :=
  let clean := removeChar '\x00' line
  let clean := removeChar '\n' clean
  let clean := removeChar '\t' clean
  let clean := removeChar '\r' clean
  let clean := removeChar '\x0C' clean
  let clean := removeChar '\x0B' clean
  let clean := RemoveControlChars clean
  let clean := clean.map Char.toLower
  if clean.contains ' ' then removeSpaces (titleCase clean)
  else removeSpaces clean

/-- `generate.PrepareStringForTransformations`: scan the chunk line by
line and prepare each line. -/
def PrepareStringForTransformations (data : List Char) : List (List Char) :=
  (scanLines data).map prepareLine

/-- The acceptance test of `generate.filterLines`: the three `continue`
conditions negated (a letter is present, ASCII only, word-like).  The
denylist check `IsQualityCandidateCheck` does not appear here. -/
def keepLine (l : List Char) : Bool :=
  !(IsAllDigitsOrSpecialChars l) && ContainsOnlyASCII l && LikelyContainsWords l

/-- `generate.filterLines`: scan the data line by line, skip lines failing
`keepLine`, and write each kept line followed by a newline. -/
def filterLines (data : List Char) : List Char :=
  (((scanLines data).filter keepLine).map (fun l => l ++ ['\n'])).flatten

/-- `strings.TrimRightFunc(line, digit)`. -/
def trimRightDigits (l : List Char) : List Char :=
  (l.reverse.dropWhile isDigitChar).reverse

/-- `strings.TrimLeftFunc(line, digit)`. -/
def trimLeftDigits (l : List Char) : List Char :=
  l.dropWhile isDigitChar

/-- `generate.removeTrailingDigits`: scan line by line, trim trailing
digits, write each line followed by a newline. -/
def removeTrailingDigits (data : List Char) : List Char :=
  (((scanLines data).map trimRightDigits).map (fun l => l ++ ['\n'])).flatten

/-- `generate.removeLeadingDigits`: scan line by line, trim leading
digits, write each line followed by a newline. -/
def removeLeadingDigits (data : List Char) : List Char :=
  (((scanLines data).map trimLeftDigits).map (fun l => l ++ ['\n'])).flatten

/-- `models.EnforceLengthRange`: split on newlines with `strings.Split`,
keep only lines whose length lies in the inclusive range, and join with
newlines (no trailing newline). -/
def EnforceLengthRange (input : List Char) (minLength maxLength : Nat) : List Char :=
  joinNl ((splitNl input).filter
    (fun l => decide (minLength ≤ l.length) && decide (l.length ≤ maxLength)))

/-- The per-chunk body of the read loop in `generate.CreateWizardWordlist`:
n-gram expansion (range 1..5), preparation, filter, digit trims, length
range [4,32], and a final filter pass. -/
def transformChunk (chunk : List Char) : List Char :=
  filterLines (EnforceLengthRange (removeLeadingDigits (removeTrailingDigits
    (filterLines (joinNl (PrepareStringForTransformations
      (GenerateNGramSliceBytes chunk 1 5)))))) 4 32)

/-- The read loop of `generate.CreateWizardWordlist`: repeatedly read up to
`chunkSize` bytes from the source and append the transformed chunk to the
target.  The fuel argument only bounds the recursion; every step consumes
at least one character, so `fuel = length` is always sufficient. -/
def readLoopF (chunkSize : Nat) : Nat → List Char → List Char
  | _, [] => []
  | 0, _ => []
  | fuel + 1, data =>
    transformChunk (data.take chunkSize) ++
      readLoopF chunkSize fuel (data.drop chunkSize)

/-- The byte stream the transform stage writes for a given source, with
`chunkSize` the read-buffer size. -/
def readLoop (chunkSize : Nat) (source : List Char) : List Char :=
  readLoopF chunkSize source.length source

/-- The stream written by `CreateWizardWordlist`, whose buffer is
`256*1024` bytes. -/
def writtenStream (source : List Char) : List Char := readLoop 262144 source

/-- Writing `new` from offset 0 into a file that previously held `old`,
opened with `O_CREATE|O_WRONLY` and NOT truncated: bytes of `old` beyond
the written region survive. -/
def writeNoTrunc (old new : List Char) : List Char :=
  new ++ old.drop new.length

/-!  The scatter-sort and bounded-aggregate stages (pkg/utils). -/

/-- Byte-wise (code point) lexicographic order of `sort.Strings`. -/
def lexLe : List Char → List Char → Bool
  | [], _ => true
  | _ :: _, [] => false
  | a :: as, b :: bs =>
    if a < b then true else if b < a then false else lexLe as bs

/-- `lexLe` as a relation, for the sorting lemmas. -/
def strLe (a b : List Char) : Prop := lexLe a b = true

instance : DecidableRel strLe := fun a b => by
  unfold strLe; infer_instance

/-- Splitting the line stream into batches of `k` lines: the scatter loop
flushes whenever the in-memory batch reaches `k` lines and once more for a
nonempty remainder.  Fuel-bounded; `fuel = length` suffices for `k ≥ 1`. -/
def chunksOfF (k : Nat) : Nat → List α → List (List α)
  | _, [] => []
  | 0, _ => []
  | fuel + 1, l => l.take k :: chunksOfF k fuel (l.drop k)

/-- `utils.sortAndWriteChunk`: sort the batch lexicographically and write
it as one temporary chunk file (modelled by its list of lines). -/
def sortAndWriteChunk (lines : List (List Char)) : List (List Char) :=
  List.insertionSort strLe lines

/-- `utils.processFileChunksToTempFiles`: batch the scanned lines into
groups of 25,000,000 and write each group sorted. -/
def processFileChunksToTempFiles (lines : List (List Char)) :
    List (List (List Char)) :=
  (chunksOfF 25000000 lines.length lines).map sortAndWriteChunk

/-- `entries[line]++` on the model of the Go map as a key-unique
association list. -/
def bumpEntry : List (List Char × Nat) → List Char → List (List Char × Nat)
  | [], line => [(line, 1)]
  | (k, c) :: rest, line =>
    if k = line then (k, c + 1) :: rest else (k, c) :: bumpEntry rest line

/-- The `sort.Slice` comparator of `flushEntriesToFile` (descending count)
as a total relation. -/
def countGe (p q : List Char × Nat) : Prop := q.2 ≤ p.2

instance : DecidableRel countGe := fun p q => by
  unfold countGe; infer_instance

/-- `fmt.Sprintf(" %d", count)`. -/
def natSuffix (n : Nat) : List Char := ' ' :: (Nat.repr n).toList

/-- `strings.TrimSuffix`: drop the suffix when present. -/
def trimSuffixStr (l suf : List Char) : List Char :=
  if suf.isSuffixOf l then l.take (l.length - suf.length) else l

/-- The line written for one `(key, count)` pair by
`utils.flushEntriesToFile`: `strings.TrimSpace(strings.TrimSuffix(key,
fmt.Sprintf(" %d", count)))`. -/
def lineOf (p : List Char × Nat) : List Char :=
  trimSpace (trimSuffixStr p.1 (natSuffix p.2))

/-- `utils.flushEntriesToFile`: collect the pairs, sort by descending
count, and write one line per pair. -/
def flushEntriesToFile (entries : List (List Char × Nat)) : List (List Char) :=
  (List.insertionSort countGe entries).map lineOf

/-- One line of the scanning loop in `utils.mergeSortedChunks`: increment
the line's count (`e := entries[line]++`) and flush when the table's size
exceeds the threshold.  The state is (entries table, lines written so
far). -/
def aggStep (threshold : Nat)
    (st : List (List Char × Nat) × List (List Char)) (line : List Char) :
    List (List Char × Nat) × List (List Char) :=
  if threshold < (bumpEntry st.1 line).length then
    ([], st.2 ++ flushEntriesToFile (bumpEntry st.1 line))
  else (bumpEntry st.1 line, st.2)

/-- The final `if len(entries) > 0` flush of `utils.mergeSortedChunks`. -/
def flushRemaining (st : List (List Char × Nat) × List (List Char)) :
    List (List Char) :=
  if 0 < st.1.length then st.2 ++ flushEntriesToFile st.1 else st.2

/-- `utils.mergeSortedChunks`: consume the chunk files sequentially (one
fully before the next, i.e. a fold over their concatenation), then flush
the remaining entries if any.  The Go threshold is 50,000,000; it is kept
as a parameter, as the code documents it as adjustable. -/
def mergeSortedChunks (threshold : Nat)
    (chunkFiles : List (List (List Char))) : List (List Char) :=
  flushRemaining (chunkFiles.flatten.foldl (aggStep threshold) ([], []))

/-- `utils.SortByAproxFrequency` applied to a target file holding
`content`: scatter-sort its lines into temporary chunk files, then
aggregate them into the recreated (truncated) target, whose lines are the
result. -/
def SortByAproxFrequency (content : List Char) : List (List Char) :=
  mergeSortedChunks 50000000 (processFileChunksToTempFiles (scanLines content))

/-- `generate.CreateWizardWordlist` at the file-content level: the
transform stream is written over the previous target content without
truncation, and the combined content is then scatter-sorted and
aggregated.  Returns the lines of the final output file. -/
def CreateWizardWordlist (oldTarget source : List Char) : List (List Char) :=
  SortByAproxFrequency (writeNoTrunc oldTarget (writtenStream source))

/-!  Order-theoretic facts about the two sort comparators. -/

theorem lexLe_trans : ∀ a b c : List Char,
    lexLe a b = true → lexLe b c = true → lexLe a c = true
  | [], _, _, _, _ => rfl
  | _ :: _, [], _, hab, _ => by simp [lexLe] at hab
  | _ :: _, _ :: _, [], _, hbc => by simp [lexLe] at hbc
  | x :: xs, y :: ys, z :: zs, hab, hbc => by
    simp only [lexLe] at hab hbc ⊢
    rcases lt_trichotomy x y with hxy | hxy | hxy
    · rcases lt_trichotomy y z with hyz | hyz | hyz
      · rw [if_pos (lt_trans hxy hyz)]
      · subst hyz; rw [if_pos hxy]
      · rw [if_neg (lt_asymm hyz), if_pos hyz] at hbc; simp at hbc
    · subst hxy
      rcases lt_trichotomy x z with hxz | hxz | hxz
      · rw [if_pos hxz]
      · subst hxz
        rw [if_neg (lt_irrefl x), if_neg (lt_irrefl x)] at hab hbc ⊢
        exact lexLe_trans xs ys zs hab hbc
      · rw [if_neg (lt_asymm hxz), if_pos hxz] at hbc; simp at hbc
    · rw [if_neg (lt_asymm hxy), if_pos hxy] at hab; simp at hab

theorem lexLe_total : ∀ a b : List Char, lexLe a b = true ∨ lexLe b a = true
  | [], _ => Or.inl rfl
  | _ :: _, [] => Or.inr rfl
  | x :: xs, y :: ys => by
    simp only [lexLe]
    rcases lt_trichotomy x y with hxy | hxy | hxy
    · left; rw [if_pos hxy]
    · subst hxy
      simp only [if_neg (lt_irrefl x)]
      exact lexLe_total xs ys
    · right; rw [if_pos hxy]

instance : IsTrans (List Char) strLe :=
  ⟨fun a b c hab hbc => lexLe_trans a b c hab hbc⟩

instance : IsTotal (List Char) strLe :=
  ⟨fun a b => lexLe_total a b⟩

instance : IsTrans (List Char × Nat) countGe :=
  ⟨fun _ _ _ hab hbc => Nat.le_trans hbc hab⟩

instance : IsTotal (List Char × Nat) countGe :=
  ⟨fun p q => (Nat.le_total q.2 p.2).imp id id⟩

/-!  Claim C5: the word-likeness window heuristic. -/

/-- The window rule as the specification words it: the window contains at
least one vowel and at most one character that is neither a vowel nor an
alphabetic letter. -/
def specWindowQualifies (w : List Char) : Prop :=
  (∃ c ∈ w, isVowelChar c = true) ∧
    w.countP (fun c => !(isVowelChar c || isLetterChar c)) ≤ 1

theorem isWordLike_iff (w : List Char) :
    isWordLike w = true ↔ specWindowQualifies w := by
  unfold isWordLike specWindowQualifies
  simp only [Bool.not_or, Bool.and_eq_true, List.any_eq_true, decide_eq_true_eq]

/-- C5: `LikelyContainsWords` returns false for strings shorter than 5 and,
for longer strings, returns true iff some 5-character window contains a
vowel and at most one character that is neither a vowel nor a letter; it
returns true on "ab1cd", false on "12345" and false on "abcd". -/
theorem likelyContainsWords_window_rule (s : List Char) :
    (s.length < 5 → LikelyContainsWords s = false) ∧
    (5 ≤ s.length →
      (LikelyContainsWords s = true ↔
        ∃ i, i + 5 ≤ s.length ∧ specWindowQualifies ((s.drop i).take 5))) ∧
    LikelyContainsWords ("ab1cd".toList) = true ∧
    LikelyContainsWords ("12345".toList) = false ∧
    LikelyContainsWords ("abcd".toList) = false := by
  refine ⟨fun h => ?_, fun h5 => ?_, by decide, by decide, by decide⟩
  · unfold LikelyContainsWords
    rw [if_pos h]
  · unfold LikelyContainsWords
    rw [if_neg (by omega), decide_eq_true_eq, List.countP_pos_iff]
    constructor
    · rintro ⟨i, hi, hw⟩
      rw [List.mem_range] at hi
      exact ⟨i, by omega, (isWordLike_iff _).mp hw⟩
    · rintro ⟨i, hi, hw⟩
      exact ⟨i, List.mem_range.mpr (by omega), (isWordLike_iff _).mpr hw⟩

/-- Witness for C5 at concrete inputs. -/
theorem likelyContainsWords_window_rule_witness :
    LikelyContainsWords ("abcd".toList) = false ∧
    LikelyContainsWords ("ab1cd".toList) = true :=
  ⟨(likelyContainsWords_window_rule ("abcd".toList)).1 (by decide),
    (likelyContainsWords_window_rule ("ab1cd".toList)).2.2.1⟩

/-!  Claim C8: the denylist check on URL and e-mail inputs. -/

/-- C8: because the pattern is a raw-string literal, the `http://` and
generic e-mail alternatives of the quality regex require literal
backslashes, so a plain `http://` URL and a plain e-mail address are both
accepted by `IsQualityCandidateCheck`, contradicting the claimed
rejection. -/
theorem isQualityCandidateCheck_accepts_url_and_email :
    IsQualityCandidateCheck ("http://abcdef".toList) = true ∧
    IsQualityCandidateCheck ("someuser@example.com".toList) = true := by
  constructor <;> decide

/-!  Claim C1: the generation filter applies three predicates, not four. -/

/-- C1 counterexample: "yahooemail" fails the denylist check, yet
`filterLines` keeps it — the generation pipeline's filter never consults
`IsQualityCandidateCheck`. -/
theorem filterLines_keeps_denylisted_line :
    filterLines ("yahooemail".toList) = ("yahooemail\n".toList) ∧
    IsQualityCandidateCheck ("yahooemail".toList) = false := by
  constructor <;> decide

/-!  Claims C2 and C3: the aggregate stage's flush behaviour. -/

/-- `dropWhile` is the identity when no element satisfies the predicate. -/
theorem dropWhile_eq_self_of_false (P : Char → Bool) :
    ∀ l : List Char, (∀ c ∈ l, P c = false) → l.dropWhile P = l
  | [], _ => rfl
  | c :: cs, h => by
    have hc := h c (List.mem_cons_self c cs)
    simp [List.dropWhile, hc]

/-- `trimSpace` is the identity on whitespace-free strings. -/
theorem trimSpace_eq_self_of_no_space (l : List Char)
    (h : ∀ c ∈ l, isSpaceChar c = false) : trimSpace l = l := by
  unfold trimSpace
  rw [dropWhile_eq_self_of_false _ l h,
    dropWhile_eq_self_of_false _ l.reverse (fun c hc => h c (List.mem_reverse.mp hc)),
    List.reverse_reverse]

/-- A flush writes exactly one line per table entry. -/
theorem flushEntriesToFile_length (entries : List (List Char × Nat)) :
    (flushEntriesToFile entries).length = entries.length := by
  unfold flushEntriesToFile
  rw [List.length_map, List.length_insertionSort]

/-- C3 (amended): a flush writes the image under `lineOf` of a permutation
of the table sorted by descending count, one line per entry; for a
whitespace-free key (as all keys produced by the transform stage are) the
written line is the key unchanged. -/
theorem flushEntriesToFile_spec (entries : List (List Char × Nat)) :
    flushEntriesToFile entries = (List.insertionSort countGe entries).map lineOf ∧
    (List.insertionSort countGe entries).Perm entries ∧
    List.Sorted countGe (List.insertionSort countGe entries) ∧
    ∀ p ∈ entries, p.1.all (fun c => !(isSpaceChar c)) = true → lineOf p = p.1 := by
  refine ⟨rfl, List.perm_insertionSort countGe entries,
    List.sorted_insertionSort countGe entries, ?_⟩
  intro p _ hp
  have hnosp : ∀ c ∈ p.1, isSpaceChar c = false := by
    intro c hc
    have := List.all_eq_true.mp hp c hc
    simpa using this
  unfold lineOf trimSuffixStr
  have hsuf : ¬((natSuffix p.2).isSuffixOf p.1 = true) := by
    intro h
    have hsub : natSuffix p.2 <:+ p.1 := by
      simpa [List.isSuffixOf] using h
    have hmem : ' ' ∈ p.1 := hsub.subset (by simp [natSuffix])
    have := hnosp ' ' hmem
    simp [isSpaceChar] at this
  rw [if_neg hsuf]
  exact trimSpace_eq_self_of_no_space p.1 hnosp

/-- Witness for C3 at a concrete table. -/
theorem flushEntriesToFile_spec_witness :
    lineOf (("abcde".toList), 2) = ("abcde".toList) :=
  (flushEntriesToFile_spec [(("abcde".toList), 2)]).2.2.2 _ (by decide) (by decide)

/-- C3 counterexample: a key that happens to end in a space followed by its
own count is written trimmed, not unchanged. -/
theorem flushEntriesToFile_alters_spacious_key :
    flushEntriesToFile [(("abc 1".toList), 1)] = [("abc".toList)] ∧
    ("abc".toList : List Char) ≠ ("abc 1".toList) := by
  constructor <;> decide

theorem bumpEntry_length_le (e : List (List Char × Nat)) (line : List Char) :
    (bumpEntry e line).length ≤ e.length + 1 := by
  induction e with
  | nil => simp [bumpEntry]
  | cons p rest ih =>
    obtain ⟨k, c⟩ := p
    unfold bumpEntry
    by_cases h : k = line
    · simp [h]
    · simp only [if_neg h, List.length_cons]
      omega

theorem bumpEntry_length_of_not_mem (e : List (List Char × Nat))
    (line : List Char) (h : line ∉ e.map Prod.fst) :
    (bumpEntry e line).length = e.length + 1 := by
  induction e with
  | nil => rfl
  | cons p rest ih =>
    obtain ⟨k, c⟩ := p
    simp only [List.map_cons, List.mem_cons] at h
    push_neg at h
    unfold bumpEntry
    rw [if_neg (fun he => h.1 he.symm)]
    simp only [List.length_cons]
    rw [ih h.2]

theorem bumpEntry_keys (e : List (List Char × Nat)) (line : List Char) :
    ∀ k ∈ (bumpEntry e line).map Prod.fst, k ∈ e.map Prod.fst ∨ k = line := by
  induction e with
  | nil =>
    intro k hk
    simp [bumpEntry] at hk
    right
    exact hk
  | cons p rest ih =>
    obtain ⟨k0, c0⟩ := p
    intro k hk
    unfold bumpEntry at hk
    by_cases h : k0 = line
    · rw [if_pos h] at hk
      simp only [List.map_cons, List.mem_cons] at hk ⊢
      tauto
    · rw [if_neg h] at hk
      simp only [List.map_cons, List.mem_cons] at hk ⊢
      rcases hk with rfl | hk
      · tauto
      · rcases ih k hk with h1 | h1 <;> tauto

theorem aggFold_length_le (th : Nat) (lines : List (List Char)) :
    ∀ st, ((lines.foldl (aggStep th) st).1.length +
        (lines.foldl (aggStep th) st).2.length)
      ≤ st.1.length + st.2.length + lines.length := by
  induction lines with
  | nil => intro st; simp
  | cons l ls ih =>
    intro st
    rw [List.foldl_cons]
    refine le_trans (ih (aggStep th st l)) ?_
    have hb := bumpEntry_length_le st.1 l
    have hstep : (aggStep th st l).1.length + (aggStep th st l).2.length
        ≤ st.1.length + st.2.length + 1 := by
      unfold aggStep
      by_cases h : th < (bumpEntry st.1 l).length
      · simp only [if_pos h, List.length_append, flushEntriesToFile_length,
          List.length_nil]
        omega
      · simp only [if_neg h]
        omega
    simp only [List.length_cons]
    omega

theorem aggFold_length_eq (th : Nat) (lines : List (List Char)) :
    ∀ st, lines.Nodup → (∀ k ∈ st.1.map Prod.fst, k ∉ lines) →
    ((lines.foldl (aggStep th) st).1.length +
        (lines.foldl (aggStep th) st).2.length)
      = st.1.length + st.2.length + lines.length := by
  induction lines with
  | nil => intro st _ _; simp
  | cons l ls ih =>
    intro st hnd hk
    rw [List.foldl_cons]
    have hlnot : l ∉ st.1.map Prod.fst :=
      fun hm => (hk l hm) (List.mem_cons_self l ls)
    have hb := bumpEntry_length_of_not_mem st.1 l hlnot
    have hstep : (aggStep th st l).1.length + (aggStep th st l).2.length
        = st.1.length + st.2.length + 1 := by
      unfold aggStep
      by_cases h : th < (bumpEntry st.1 l).length
      · simp only [if_pos h, List.length_append, flushEntriesToFile_length,
          List.length_nil]
        omega
      · simp only [if_neg h]
        omega
    have hkeys : ∀ k ∈ (aggStep th st l).1.map Prod.fst, k ∉ ls := by
      intro k hkm
      unfold aggStep at hkm
      by_cases h : th < (bumpEntry st.1 l).length
      · rw [if_pos h] at hkm
        simp at hkm
      · rw [if_neg h] at hkm
        rcases bumpEntry_keys st.1 l k hkm with h1 | rfl
        · exact fun hthere => hk k h1 (List.mem_cons_of_mem _ hthere)
        · exact (List.nodup_cons.mp hnd).1
    rw [ih (aggStep th st l) (List.nodup_cons.mp hnd).2 hkeys, hstep]
    simp only [List.length_cons]
    omega

/-- C2 (amended): the aggregate stage writes one line per distinct key of
each flush window, so the total number of lines written is at most the
number of lines consumed, with equality precisely guaranteed when the
consumed lines are pairwise distinct. -/
theorem mergeSortedChunks_line_count (th : Nat)
    (chunkFiles : List (List (List Char))) :
    (mergeSortedChunks th chunkFiles).length ≤ chunkFiles.flatten.length ∧
    (chunkFiles.flatten.Nodup →
      (mergeSortedChunks th chunkFiles).length = chunkFiles.flatten.length) := by
  unfold mergeSortedChunks flushRemaining
  have hle := aggFold_length_le th chunkFiles.flatten ([], [])
  simp only [List.length_nil] at hle
  constructor
  · by_cases h : 0 < (chunkFiles.flatten.foldl (aggStep th) ([], [])).1.length
    · simp only [if_pos h, List.length_append, flushEntriesToFile_length]
      omega
    · simp only [if_neg h]
      omega
  · intro hnd
    have heq := aggFold_length_eq th chunkFiles.flatten ([], []) hnd
      (by intro k hk; simp at hk)
    simp only [List.length_nil] at heq
    by_cases h : 0 < (chunkFiles.flatten.foldl (aggStep th) ([], [])).1.length
    · simp only [if_pos h, List.length_append, flushEntriesToFile_length]
      omega
    · simp only [if_neg h]
      omega

/-- Witness for C2 at a concrete run (distinct lines: equality). -/
theorem mergeSortedChunks_line_count_witness :
    (mergeSortedChunks 50000000 [[("abcde".toList), ("fghio".toList)]]).length
      = ([[("abcde".toList), ("fghio".toList)]] :
          List (List (List Char))).flatten.length :=
  (mergeSortedChunks_line_count 50000000
    [[("abcde".toList), ("fghio".toList)]]).2 (by decide)

/-- C2 counterexample: two identical input lines in one window produce a
single output line — the claimed one-line-per-input-line equality fails. -/
theorem mergeSortedChunks_collapses_duplicates :
    (mergeSortedChunks 50000000 [[("aaaaa".toList), ("aaaaa".toList)]]).length = 1 ∧
    ([[("aaaaa".toList), ("aaaaa".toList)]] :
        List (List (List Char))).flatten.length = 2 := by
  constructor <;> decide

/-!  Claim C6: the scatter-sort stage. -/

theorem chunksOfF_flatten {α : Type} (k : Nat) (hk : 0 < k) :
    ∀ (f : Nat) (l : List α), l.length ≤ f → (chunksOfF k f l).flatten = l := by
  intro f
  induction f with
  | zero =>
    intro l hl
    rw [List.eq_nil_of_length_eq_zero (Nat.le_zero.mp hl)]
    rfl
  | succ f ih =>
    intro l hl
    cases l with
    | nil => rfl
    | cons x xs =>
      simp only [chunksOfF, List.flatten_cons]
      have hlen : (List.drop k (x :: xs)).length ≤ f := by
        simp only [List.length_drop, List.length_cons]
        simp only [List.length_cons] at hl
        omega
      rw [ih _ hlen]
      exact List.take_append_drop k (x :: xs)

theorem flatten_map_insertionSort_perm (cs : List (List (List Char))) :
    ((cs.map (List.insertionSort strLe)).flatten).Perm cs.flatten := by
  induction cs with
  | nil => simp
  | cons c cs ih =>
    simp only [List.map_cons, List.flatten_cons]
    exact (List.perm_insertionSort strLe c).append ih

/-- C6: the multiset of lines across all temporary chunk files equals the
multiset of lines fed into the scatter-sort stage, and every chunk file is
internally sorted in lexicographic order. -/
theorem processFileChunksToTempFiles_spec (lines : List (List Char)) :
    ((processFileChunksToTempFiles lines).flatten).Perm lines ∧
    ∀ c ∈ processFileChunksToTempFiles lines, List.Sorted strLe c := by
  constructor
  · unfold processFileChunksToTempFiles sortAndWriteChunk
    have hflat : (chunksOfF 25000000 lines.length lines).flatten = lines :=
      chunksOfF_flatten 25000000 (by omega) lines.length lines le_rfl
    have hp := flatten_map_insertionSort_perm (chunksOfF 25000000 lines.length lines)
    rw [hflat] at hp
    exact hp
  · intro c hc
    unfold processFileChunksToTempFiles sortAndWriteChunk at hc
    obtain ⟨c0, _, rfl⟩ := List.mem_map.mp hc
    exact List.sorted_insertionSort strLe c0

/-- Witness for C6: a concrete chunk file is sorted. -/
theorem processFileChunksToTempFiles_spec_witness :
    List.Sorted strLe [("ab".toList), ("ba".toList)] :=
  (processFileChunksToTempFiles_spec [("ba".toList), ("ab".toList)]).2
    [("ab".toList), ("ba".toList)] (by decide)

/-!  Claim C10: the transform stage handles each fixed-size read
independently. -/

theorem readLoopF_eq_chunks (size : Nat) (hsize : 0 < size) :
    ∀ (f : Nat) (data : List Char), data.length ≤ f →
    readLoopF size f data = ((chunksOfF size f data).map transformChunk).flatten := by
  intro f
  induction f with
  | zero =>
    intro data h
    rw [List.eq_nil_of_length_eq_zero (Nat.le_zero.mp h)]
    rfl
  | succ f ih =>
    intro data h
    cases data with
    | nil => rfl
    | cons x xs =>
      simp only [readLoopF, chunksOfF, List.map_cons, List.flatten_cons]
      have hlen : (List.drop size (x :: xs)).length ≤ f := by
        simp only [List.length_drop, List.length_cons]
        simp only [List.length_cons] at h
        omega
      rw [ih _ hlen]

/-- C10: the read loop's output is exactly the concatenation of the
transform applied independently to each successive fixed-size read (and
`writtenStream` instantiates this at the 256KB buffer size); a source word
straddling a read boundary is handled as two separate lines — split into
4-character reads, "stale" yields nothing, while transformed whole it
yields itself. -/
theorem readLoop_chunked_independently :
    (∀ (size : Nat) (source : List Char), 0 < size →
      readLoop size source =
        ((chunksOfF size source.length source).map transformChunk).flatten) ∧
    (∀ source : List Char, writtenStream source = readLoop 262144 source) ∧
    readLoop 4 ("stale".toList) = [] ∧
    transformChunk ("stale".toList) = ("stale\n".toList) := by
  refine ⟨fun size source h => readLoopF_eq_chunks size h source.length source le_rfl,
    fun _ => rfl, by decide, by decide⟩

/-- Witness for C10 at a concrete size and source. -/
theorem readLoop_chunked_independently_witness :
    readLoop 4 ("ab\ncd".toList) =
      ((chunksOfF 4 ("ab\ncd".toList).length ("ab\ncd".toList)).map
        transformChunk).flatten :=
  (readLoop_chunked_independently).1 4 ("ab\ncd".toList) (by decide)

/-!  Infrastructure: how `scanLines`, `splitNl` and `joinNl` interact. -/

theorem dropCR_subset (l : List Char) : dropCR l ⊆ l := by
  unfold dropCR
  split
  · exact List.dropLast_subset l
  · exact fun _ h => h

theorem dropCR_eq_self (l : List Char) (h : '\r' ∉ l) : dropCR l = l := by
  unfold dropCR
  split
  · rename_i hl
    exact absurd (List.mem_of_getLast?_eq_some hl) h
  · rfl

theorem scanLinesAux_cons_nl (acc rest : List Char) :
    scanLinesAux acc ('\n' :: rest) = dropCR acc.reverse :: scanLinesAux [] rest := by
  simp [scanLinesAux]

theorem scanLinesAux_cons_other (acc rest : List Char) (c : Char) (hc : c ≠ '\n') :
    scanLinesAux acc (c :: rest) = scanLinesAux (c :: acc) rest := by
  simp [scanLinesAux, hc]

theorem scanLinesAux_consume :
    ∀ (l acc rest : List Char), (∀ c ∈ l, c ≠ '\n') →
    scanLinesAux acc (l ++ rest) = scanLinesAux (l.reverse ++ acc) rest
  | [], acc, rest, _ => by simp
  | c :: cs, acc, rest, h => by
    have hc : ¬(c = '\n') := h c (List.mem_cons_self c cs)
    rw [List.cons_append, scanLinesAux_cons_other _ _ c hc]
    rw [scanLinesAux_consume cs (c :: acc) rest
      (fun x hx => h x (List.mem_cons_of_mem c hx))]
    simp [List.reverse_cons, List.append_assoc]

theorem scanLinesAux_append (a : List Char) (ha : a.getLast? = some '\n') :
    ∀ (acc b : List Char),
    scanLinesAux acc (a ++ b) = scanLinesAux acc a ++ scanLinesAux [] b := by
  induction a with
  | nil => simp at ha
  | cons c a' ih =>
    intro acc b
    cases a' with
    | nil =>
      have hc : c = '\n' := by simpa using ha
      subst hc
      rw [List.cons_append, List.nil_append, scanLinesAux_cons_nl,
        scanLinesAux_cons_nl]
      simp [scanLinesAux]
    | cons c2 a'' =>
      have h' : (c2 :: a'').getLast? = some '\n' := by
        rwa [List.getLast?_cons_cons] at ha
      by_cases hc : c = '\n'
      · subst hc
        rw [List.cons_append, scanLinesAux_cons_nl, scanLinesAux_cons_nl,
          ih h' [] b]
        simp
      · rw [List.cons_append, scanLinesAux_cons_other _ _ c hc,
          scanLinesAux_cons_other _ _ c hc]
        exact ih h' (c :: acc) b

theorem scanLines_append (a b : List Char)
    (h : a = [] ∨ a.getLast? = some '\n') :
    scanLines (a ++ b) = scanLines a ++ scanLines b := by
  rcases h with rfl | h
  · simp [scanLines, scanLinesAux]
  · exact scanLinesAux_append a h [] b

theorem scanLines_singleton_block (l : List Char) (h : ∀ c ∈ l, c ≠ '\n') :
    scanLines (l ++ ['\n']) = [dropCR l] := by
  unfold scanLines
  rw [scanLinesAux_consume l [] ['\n'] h]
  simp [scanLinesAux]

theorem scanLines_flatten_terminated (ls : List (List Char))
    (h : ∀ l ∈ ls, ∀ c ∈ l, c ≠ '\n') :
    scanLines ((ls.map (fun l => l ++ ['\n'])).flatten) = ls.map dropCR := by
  induction ls with
  | nil => rfl
  | cons l ls ih =>
    simp only [List.map_cons, List.flatten_cons]
    rw [scanLines_append (l ++ ['\n']) _ (Or.inr (List.getLast?_concat l)),
      scanLines_singleton_block l (h l (List.mem_cons_self l ls)),
      ih (fun x hx => h x (List.mem_cons_of_mem l hx))]
    rfl

theorem scanLinesAux_no_nl :
    ∀ (s acc : List Char), (∀ c ∈ acc, c ≠ '\n') →
    ∀ t ∈ scanLinesAux acc s, ∀ c ∈ t, c ≠ '\n' := by
  intro s
  induction s with
  | nil =>
    intro acc hacc t ht c hc
    simp only [scanLinesAux] at ht
    by_cases he : acc.isEmpty
    · rw [if_pos he] at ht
      simp at ht
    · rw [if_neg he] at ht
      simp only [List.mem_singleton] at ht
      subst ht
      exact hacc c (List.mem_reverse.mp (dropCR_subset _ hc))
  | cons d rest ih =>
    intro acc hacc t ht c hc
    simp only [scanLinesAux] at ht
    by_cases hd : d = '\n'
    · rw [if_pos hd] at ht
      rcases List.mem_cons.mp ht with rfl | ht2
      · exact hacc c (List.mem_reverse.mp (dropCR_subset _ hc))
      · exact ih [] (by simp) t ht2 c hc
    · rw [if_neg hd] at ht
      refine ih (d :: acc) ?_ t ht c hc
      intro x hx
      rcases List.mem_cons.mp hx with rfl | hx2
      · exact hd
      · exact hacc x hx2

theorem scanLines_no_nl (s : List Char) :
    ∀ t ∈ scanLines s, ∀ c ∈ t, c ≠ '\n' :=
  scanLinesAux_no_nl s [] (by simp)

theorem scanLinesAux_chars :
    ∀ (s acc : List Char), ∀ t ∈ scanLinesAux acc s, ∀ c ∈ t, c ∈ acc ∨ c ∈ s := by
  intro s
  induction s with
  | nil =>
    intro acc t ht c hc
    simp only [scanLinesAux] at ht
    by_cases he : acc.isEmpty
    · rw [if_pos he] at ht
      simp at ht
    · rw [if_neg he] at ht
      simp only [List.mem_singleton] at ht
      subst ht
      exact Or.inl (List.mem_reverse.mp (dropCR_subset _ hc))
  | cons d rest ih =>
    intro acc t ht c hc
    simp only [scanLinesAux] at ht
    by_cases hd : d = '\n'
    · rw [if_pos hd] at ht
      rcases List.mem_cons.mp ht with rfl | ht2
      · exact Or.inl (List.mem_reverse.mp (dropCR_subset _ hc))
      · rcases ih [] t ht2 c hc with h1 | h1
        · simp at h1
        · exact Or.inr (List.mem_cons_of_mem d h1)
    · rw [if_neg hd] at ht
      rcases ih (d :: acc) t ht c hc with h1 | h1
      · rcases List.mem_cons.mp h1 with rfl | h2
        · exact Or.inr (List.mem_cons_self c rest)
        · exact Or.inl h2
      · exact Or.inr (List.mem_cons_of_mem d h1)

theorem scanLines_chars (s : List Char) :
    ∀ t ∈ scanLines s, ∀ c ∈ t, c ∈ s := by
  intro t ht c hc
  rcases scanLinesAux_chars s [] t ht c hc with h | h
  · simp at h
  · exact h

theorem splitNlAux_no_nl :
    ∀ (s acc : List Char), (∀ c ∈ acc, c ≠ '\n') →
    ∀ t ∈ splitNlAux acc s, ∀ c ∈ t, c ≠ '\n' := by
  intro s
  induction s with
  | nil =>
    intro acc hacc t ht c hc
    simp only [splitNlAux, List.mem_singleton] at ht
    subst ht
    exact hacc c (List.mem_reverse.mp hc)
  | cons d rest ih =>
    intro acc hacc t ht c hc
    simp only [splitNlAux] at ht
    by_cases hd : d = '\n'
    · rw [if_pos hd] at ht
      rcases List.mem_cons.mp ht with rfl | ht2
      · exact hacc c (List.mem_reverse.mp hc)
      · exact ih [] (by simp) t ht2 c hc
    · rw [if_neg hd] at ht
      refine ih (d :: acc) ?_ t ht c hc
      intro x hx
      rcases List.mem_cons.mp hx with rfl | hx2
      · exact hd
      · exact hacc x hx2

theorem splitNl_no_nl (s : List Char) :
    ∀ t ∈ splitNl s, ∀ c ∈ t, c ≠ '\n' :=
  splitNlAux_no_nl s [] (by simp)

theorem splitNlAux_chars :
    ∀ (s acc : List Char), ∀ t ∈ splitNlAux acc s, ∀ c ∈ t, c ∈ acc ∨ c ∈ s := by
  intro s
  induction s with
  | nil =>
    intro acc t ht c hc
    simp only [splitNlAux, List.mem_singleton] at ht
    subst ht
    exact Or.inl (List.mem_reverse.mp hc)
  | cons d rest ih =>
    intro acc t ht c hc
    simp only [splitNlAux] at ht
    by_cases hd : d = '\n'
    · rw [if_pos hd] at ht
      rcases List.mem_cons.mp ht with rfl | ht2
      · exact Or.inl (List.mem_reverse.mp hc)
      · rcases ih [] t ht2 c hc with h1 | h1
        · simp at h1
        · exact Or.inr (List.mem_cons_of_mem d h1)
    · rw [if_neg hd] at ht
      rcases ih (d :: acc) t ht c hc with h1 | h1
      · rcases List.mem_cons.mp h1 with rfl | h2
        · exact Or.inr (List.mem_cons_self c rest)
        · exact Or.inl h2
      · exact Or.inr (List.mem_cons_of_mem d h1)

theorem splitNl_chars (s : List Char) :
    ∀ t ∈ splitNl s, ∀ c ∈ t, c ∈ s := by
  intro t ht c hc
  rcases splitNlAux_chars s [] t ht c hc with h | h
  · simp at h
  · exact h

theorem joinNl_chars :
    ∀ (ls : List (List Char)), ∀ c ∈ joinNl ls, c = '\n' ∨ ∃ l ∈ ls, c ∈ l
  | [], c, hc => by simp [joinNl] at hc
  | [l], c, hc => by
    simp only [joinNl] at hc
    exact Or.inr ⟨l, List.mem_singleton_self l, hc⟩
  | l :: l2 :: ls, c, hc => by
    simp only [joinNl] at hc
    rcases List.mem_append.mp hc with h1 | h1
    · exact Or.inr ⟨l, List.mem_cons_self _ _, h1⟩
    · rcases List.mem_cons.mp h1 with rfl | h2
      · exact Or.inl rfl
      · rcases joinNl_chars (l2 :: ls) c h2 with h3 | ⟨l', hl', hc'⟩
        · exact Or.inl h3
        · exact Or.inr ⟨l', List.mem_cons_of_mem l hl', hc'⟩

theorem scanLines_joinNl_sub :
    ∀ (ws : List (List Char)), (∀ w ∈ ws, ∀ c ∈ w, c ≠ '\n') →
    ∀ t ∈ scanLines (joinNl ws), ∃ w ∈ ws, t = dropCR w
  | [], _, t, ht => by simp [joinNl, scanLines, scanLinesAux] at ht
  | [w], h, t, ht => by
    simp only [joinNl] at ht
    unfold scanLines at ht
    rw [show (w : List Char) = w ++ [] from (List.append_nil w).symm,
      scanLinesAux_consume w [] [] (h w (List.mem_singleton_self w))] at ht
    by_cases hw : w = []
    · subst hw
      simp [scanLinesAux] at ht
    · simp only [List.append_nil, scanLinesAux] at ht
      rw [if_neg (by simpa using hw)] at ht
      simp only [List.reverse_reverse, List.mem_singleton] at ht
      exact ⟨w, List.mem_singleton_self w, ht⟩
  | w :: w2 :: ws, h, t, ht => by
    simp only [joinNl] at ht
    unfold scanLines at ht
    rw [show w ++ '\n' :: joinNl (w2 :: ws) = w ++ ('\n' :: joinNl (w2 :: ws)) from rfl,
      scanLinesAux_consume w [] _ (h w (List.mem_cons_self _ _))] at ht
    simp only [scanLinesAux, if_pos rfl, List.append_nil, List.reverse_reverse] at ht
    rcases List.mem_cons.mp ht with rfl | ht2
    · exact ⟨w, List.mem_cons_self _ _, rfl⟩
    · obtain ⟨w', hw', ht'⟩ := scanLines_joinNl_sub (w2 :: ws)
        (fun x hx => h x (List.mem_cons_of_mem w hx)) t ht2
      exact ⟨w', List.mem_cons_of_mem w hw', ht'⟩

/-!  Characters surviving each stage (used to chase carriage returns and
printability through the pipeline). -/

theorem flatten_terminated_chars (ls : List (List Char)) :
    ∀ c ∈ (ls.map (fun l => l ++ ['\n'])).flatten, c = '\n' ∨ ∃ l ∈ ls, c ∈ l := by
  intro c hc
  obtain ⟨b, hb, hcb⟩ := List.mem_flatten.mp hc
  obtain ⟨l, hl, rfl⟩ := List.mem_map.mp hb
  rcases List.mem_append.mp hcb with h1 | h1
  · exact Or.inr ⟨l, hl, h1⟩
  · simp only [List.mem_singleton] at h1
    exact Or.inl h1

theorem filterLines_chars (data : List Char) :
    ∀ c ∈ filterLines data, c = '\n' ∨ c ∈ data := by
  intro c hc
  unfold filterLines at hc
  rcases flatten_terminated_chars _ c hc with h | ⟨l, hl, hcl⟩
  · exact Or.inl h
  · exact Or.inr (scanLines_chars data l (List.mem_of_mem_filter hl) c hcl)

theorem trimRightDigits_subset (l : List Char) : trimRightDigits l ⊆ l := by
  intro c hc
  unfold trimRightDigits at hc
  exact List.mem_reverse.mp
    (List.dropWhile_subset isDigitChar (List.mem_reverse.mp hc))

theorem trimLeftDigits_subset (l : List Char) : trimLeftDigits l ⊆ l :=
  List.dropWhile_subset isDigitChar

theorem removeTrailingDigits_chars (data : List Char) :
    ∀ c ∈ removeTrailingDigits data, c = '\n' ∨ c ∈ data := by
  intro c hc
  unfold removeTrailingDigits at hc
  rcases flatten_terminated_chars _ c hc with h | ⟨l, hl, hcl⟩
  · exact Or.inl h
  · obtain ⟨t, ht, rfl⟩ := List.mem_map.mp hl
    exact Or.inr (scanLines_chars data t ht c (trimRightDigits_subset t hcl))

theorem removeLeadingDigits_chars (data : List Char) :
    ∀ c ∈ removeLeadingDigits data, c = '\n' ∨ c ∈ data := by
  intro c hc
  unfold removeLeadingDigits at hc
  rcases flatten_terminated_chars _ c hc with h | ⟨l, hl, hcl⟩
  · exact Or.inl h
  · obtain ⟨t, ht, rfl⟩ := List.mem_map.mp hl
    exact Or.inr (scanLines_chars data t ht c (trimLeftDigits_subset t hcl))

theorem enforceLengthRange_chars (input : List Char) (mn mx : Nat) :
    ∀ c ∈ EnforceLengthRange input mn mx, c = '\n' ∨ c ∈ input := by
  intro c hc
  unfold EnforceLengthRange at hc
  rcases joinNl_chars _ c hc with h | ⟨l, hl, hcl⟩
  · exact Or.inl h
  · exact Or.inr (splitNl_chars input l (List.mem_of_mem_filter hl) c hcl)

theorem toLower_printable (c : Char) (h1 : 32 ≤ c.toNat) (h2 : c.toNat ≤ 126) :
    32 ≤ (Char.toLower c).toNat ∧ (Char.toLower c).toNat ≤ 126 := by
  unfold Char.toLower
  by_cases h : c.toNat ≥ 65 ∧ c.toNat ≤ 90
  · rw [if_pos h]
    obtain ⟨ha, hb⟩ := h
    generalize hn : c.toNat = n at ha hb
    interval_cases n <;> exact ⟨by decide, by decide⟩
  · rw [if_neg h]
    exact ⟨h1, h2⟩

theorem toUpper_printable (c : Char) (h1 : 32 ≤ c.toNat) (h2 : c.toNat ≤ 126) :
    32 ≤ (Char.toUpper c).toNat ∧ (Char.toUpper c).toNat ≤ 126 := by
  unfold Char.toUpper
  by_cases h : c.toNat ≥ 97 ∧ c.toNat ≤ 122
  · rw [if_pos h]
    obtain ⟨ha, hb⟩ := h
    generalize hn : c.toNat = n at ha hb
    interval_cases n <;> exact ⟨by decide, by decide⟩
  · rw [if_neg h]
    exact ⟨h1, h2⟩

theorem titleAux_printable :
    ∀ (b : Bool) (l : List Char),
    (∀ c ∈ l, 32 ≤ c.toNat ∧ c.toNat ≤ 126) →
    ∀ c ∈ titleAux b l, 32 ≤ c.toNat ∧ c.toNat ≤ 126 := by
  intro b l
  induction l generalizing b with
  | nil =>
    intro _ c hc
    simp [titleAux] at hc
  | cons d rest ih =>
    intro h c hc
    unfold titleAux at hc
    by_cases hd : d = ' '
    · rw [if_pos hd] at hc
      rcases List.mem_cons.mp hc with rfl | hc2
      · exact h c (List.mem_cons_self c rest)
      · exact ih true (fun x hx => h x (List.mem_cons_of_mem d hx)) c hc2
    · rw [if_neg hd] at hc
      rcases List.mem_cons.mp hc with rfl | hc2
      · cases b with
        | true =>
          have hd2 := h d (List.mem_cons_self d rest)
          simpa using toUpper_printable d hd2.1 hd2.2
        | false => simpa using h d (List.mem_cons_self d rest)
      · exact ih false (fun x hx => h x (List.mem_cons_of_mem d hx)) c hc2

theorem removeControlChars_printable (s : List Char) :
    ∀ c ∈ RemoveControlChars s, 32 ≤ c.toNat ∧ c.toNat ≤ 126 := by
  intro c hc
  unfold RemoveControlChars at hc
  have h := (List.mem_filter.mp hc).2
  simp only [Bool.and_eq_true, decide_eq_true_eq] at h
  exact h

theorem prepareLine_printable (line : List Char) :
    ∀ c ∈ prepareLine line, 32 ≤ c.toNat ∧ c.toNat ≤ 126 := by
  intro c hc
  simp only [prepareLine] at hc
  have hbase : ∀ x ∈ (RemoveControlChars (removeChar '\x0B' (removeChar '\x0C'
      (removeChar '\r' (removeChar '\t' (removeChar '\n'
        (removeChar '\x00' line))))))).map Char.toLower,
      32 ≤ x.toNat ∧ x.toNat ≤ 126 := by
    intro x hx
    obtain ⟨y, hy, rfl⟩ := List.mem_map.mp hx
    have h := removeControlChars_printable _ y hy
    exact toLower_printable y h.1 h.2
  split at hc
  · have hc2 := (List.mem_filter.mp hc).1
    exact titleAux_printable true _ hbase c hc2
  · have hc2 := (List.mem_filter.mp hc).1
    exact hbase c hc2

theorem prepared_content_chars (d : List Char) :
    ∀ c ∈ joinNl (PrepareStringForTransformations d),
    c = '\n' ∨ (32 ≤ c.toNat ∧ c.toNat ≤ 126) := by
  intro c hc
  rcases joinNl_chars _ c hc with h | ⟨l, hl, hcl⟩
  · exact Or.inl h
  · obtain ⟨t, _, rfl⟩ := List.mem_map.mp hl
    exact Or.inr (prepareLine_printable t c hcl)

theorem prepared_no_cr (d : List Char) :
    '\r' ∉ joinNl (PrepareStringForTransformations d) := by
  intro h
  rcases prepared_content_chars d '\r' h with h1 | h1
  · exact absurd h1 (by decide)
  · exact absurd h1 (by decide)

/-!  The re-scan characterization of `filterLines` and the length bound. -/

theorem scanLines_filterLines (data : List Char) :
    scanLines (filterLines data) = ((scanLines data).filter keepLine).map dropCR := by
  unfold filterLines
  exact scanLines_flatten_terminated _
    (fun l hl => scanLines_no_nl data l (List.mem_of_mem_filter hl))

theorem filterLines_nl_terminated (data : List Char) :
    filterLines data = [] ∨ (filterLines data).getLast? = some '\n' := by
  unfold filterLines
  generalize (scanLines data).filter keepLine = ls
  induction ls with
  | nil => exact Or.inl rfl
  | cons l ls ih =>
    right
    simp only [List.map_cons, List.flatten_cons]
    rcases ih with h | h
    · rw [h, List.append_nil]
      exact List.getLast?_concat l
    · rw [List.getLast?_append, h]
      rfl

theorem transformChunk_nl_terminated (chunk : List Char) :
    transformChunk chunk = [] ∨ (transformChunk chunk).getLast? = some '\n' := by
  unfold transformChunk
  exact filterLines_nl_terminated _

theorem transformChunk_line_length (chunk : List Char) :
    ∀ line ∈ scanLines (transformChunk chunk),
    4 ≤ line.length ∧ line.length ≤ 32 := by
  intro line hline
  unfold transformChunk at hline
  rw [scanLines_filterLines] at hline
  obtain ⟨l, hl, rfl⟩ := List.mem_map.mp hline
  have hlY := List.mem_of_mem_filter hl
  unfold EnforceLengthRange at hlY
  obtain ⟨w, hw, rfl⟩ := scanLines_joinNl_sub _
    (fun w hw => splitNl_no_nl _ w (List.mem_of_mem_filter hw)) l hlY
  have hwlen : 4 ≤ w.length ∧ w.length ≤ 32 := by
    have h := (List.mem_filter.mp hw).2
    simp only [Bool.and_eq_true, decide_eq_true_eq] at h
    exact h
  have hwZ := List.mem_of_mem_filter hw
  have hnoCR : '\r' ∉ removeLeadingDigits (removeTrailingDigits (filterLines
      (joinNl (PrepareStringForTransformations
        (GenerateNGramSliceBytes chunk 1 5))))) := by
    intro hmem
    rcases removeLeadingDigits_chars _ '\r' hmem with h | h
    · exact absurd h (by decide)
    rcases removeTrailingDigits_chars _ '\r' h with h2 | h2
    · exact absurd h2 (by decide)
    rcases filterLines_chars _ '\r' h2 with h3 | h3
    · exact absurd h3 (by decide)
    exact prepared_no_cr _ h3
  have hwCR : '\r' ∉ w := fun hm => hnoCR (splitNl_chars _ w hwZ '\r' hm)
  rw [dropCR_eq_self w hwCR, dropCR_eq_self w hwCR]
  exact hwlen

theorem readLoopF_line_length (size : Nat) :
    ∀ (f : Nat) (source : List Char),
    ∀ line ∈ scanLines (readLoopF size f source),
    4 ≤ line.length ∧ line.length ≤ 32 := by
  intro f
  induction f with
  | zero =>
    intro source line hline
    cases source with
    | nil => simp [readLoopF, scanLines, scanLinesAux] at hline
    | cons c cs => simp [readLoopF, scanLines, scanLinesAux] at hline
  | succ f ih =>
    intro source line hline
    cases source with
    | nil => simp [readLoopF, scanLines, scanLinesAux] at hline
    | cons c cs =>
      simp only [readLoopF] at hline
      rw [scanLines_append _ _ (transformChunk_nl_terminated _)] at hline
      rcases List.mem_append.mp hline with h | h
      · exact transformChunk_line_length _ line h
      · exact ih _ line h

/-- C7: every line the transform stage writes to the intermediate file has
length between 4 and 32 inclusive. -/
theorem writtenStream_line_length (source : List Char) :
    ∀ line ∈ scanLines (writtenStream source),
    4 ≤ line.length ∧ line.length ≤ 32 :=
  fun line hline => readLoopF_line_length 262144 source.length source line hline

/-- Witness for C7 on a concrete source file. -/
theorem writtenStream_line_length_witness :
    4 ≤ ("stale".toList).length ∧ ("stale".toList).length ≤ 32 :=
  writtenStream_line_length ("stale\n".toList) ("stale".toList) (by decide)

/-!  Claim C1 (amended) and claim C4. -/

/-- C1 (amended): the generation filter keeps a line iff it has a letter,
is ASCII-only and passes the word-likeness heuristic — three predicates;
the denylist check is applied only on the ingestion path, never here. -/
theorem filterLines_composite_rule (data : List Char) :
    scanLines (filterLines data) =
      ((scanLines data).filter (fun l =>
        !(IsAllDigitsOrSpecialChars l) && ContainsOnlyASCII l &&
          LikelyContainsWords l)).map dropCR :=
  scanLines_filterLines data

/-- C4: with a pre-existing target file holding "stale\n" and an empty
source file, the generation run outputs the line "stale" — content that
predates the run and is not derived from the source survives, because the
target is opened without truncation. -/
theorem createWizardWordlist_keeps_stale_content :
    CreateWizardWordlist ("stale\n".toList) [] = [("stale".toList)] ∧
    writtenStream [] = [] := by
  constructor <;> decide

end Ponder